import Mathlib

/-!
# Verification of the Beez simulation core

Shallow embedding of the stigmergic-communication and foraging core of the
`bee_sim` package, together with proofs of the specified properties.

Conventions used throughout:
* Python floats are modelled as exact numbers: `ℚ` wherever the source only
  performs field arithmetic and comparisons, `ℝ` where transcendental
  functions (`exp`, `cos`, `sqrt`) appear.
* `math.hypot(dx, dy) < c` (for a constant `c > 0`) is embedded as the
  equivalent `dx^2 + dy^2 < c^2`, keeping the predicate decidable.
* Mutation of Python objects becomes explicit state passing: each method
  returns the updated record(s).
-/

namespace BeeSim

/-! ## Flowers (`bee_sim/domain/environment/flowers.py`) -/

/-- One flower of the `FlowerField` (dataclass `Flower`). -/
structure Flower where
  id : ℕ
  x : ℚ
  y : ℚ
  nectar : ℚ
  cap : ℚ
  regen_rate : ℚ
  reserved : Bool := false
  ever_visited : Bool := false
  deriving Repr, DecidableEq

/-- `Flower.available`: the "worth visiting" threshold `nectar >= 0.75`. -/
def Flower.available (f : Flower) : Prop := f.nectar ≥ 3/4

instance (f : Flower) : Decidable f.available := by
  unfold Flower.available; infer_instance

/-- Squared Euclidean distance from a flower to a point, exactly the
`d2 = (f.x - x)**2 + (f.y - y)**2` computed by `reserve_nearest`. -/
def Flower.d2 (f : Flower) (x y : ℚ) : ℚ :=
  (f.x - x) * (f.x - x) + (f.y - y) * (f.y - y)

/-- The filter used by `reserve_nearest`: the flower is unreserved, available,
and not skipped by the `avoid_ids` test.  (In the source the avoid test is
`if avoid_ids and f.id in avoid_ids: continue`; membership in an empty
collection is false, so the truthiness guard changes nothing.) -/
def Flower.candidate (f : Flower) (avoid : List ℕ) : Prop :=
  f.reserved = false ∧ f.available ∧ f.id ∉ avoid

instance (f : Flower) (avoid : List ℕ) : Decidable (f.candidate avoid) := by
  unfold Flower.candidate; infer_instance

/-- The accumulator loop of `FlowerField.reserve_nearest`: walk the list
keeping the best (index, flower, squared distance) seen so far, replacing it
on a strictly smaller squared distance. -/
def reserveScan (x y : ℚ) (avoid : List ℕ) :
    List Flower → ℕ → Option (ℕ × Flower × ℚ) → Option (ℕ × Flower × ℚ)
  | [], _, acc => acc
  | f :: rest, i, acc =>
    if f.candidate avoid then
      let d2 := f.d2 x y
      match acc with
      | none => reserveScan x y avoid rest (i + 1) (some (i, f, d2))
      | some (j, g, bd2) =>
        if d2 < bd2 then reserveScan x y avoid rest (i + 1) (some (i, f, d2))
        else reserveScan x y avoid rest (i + 1) (some (j, g, bd2))
    else reserveScan x y avoid rest (i + 1) acc

/-- `FlowerField.reserve_nearest(x, y, avoid_ids)`: find the nearest
unreserved available flower (ties broken toward the earlier list entry, as
by the strict `d2 < best_d2` comparison), mark it reserved and return it;
the returned object is the already-mutated flower, as in the source. -/
def reserveNearest (field : List Flower) (x y : ℚ) (avoid : List ℕ) :
    Option Flower × List Flower :=
  match reserveScan x y avoid field 0 none with
  | none => (none, field)
  | some (i, f, _) =>
    (some { f with reserved := true }, field.set i { f with reserved := true })

/-- `FlowerField.collect_from(flower_id, amount)`: on the first flower with a
matching id, take `min(amount, max(0, nectar))`, mark it visited when the
take is positive, and clear the reservation flag unconditionally; return the
amount obtained (`0.0` when no flower matches). -/
def collectFrom : List Flower → ℕ → ℚ → ℚ × List Flower
  | [], _, _ => (0, [])
  | f :: rest, fid, amount =>
    if f.id = fid then
      let got := min amount (max 0 f.nectar)
      (got, { f with
                nectar := f.nectar - got,
                ever_visited := if 0 < got then true else f.ever_visited,
                reserved := false } :: rest)
    else
      let r := collectFrom rest fid amount
      (r.1, f :: r.2)

/-- `FlowerField.release_reservation(flower_id)`: clear the reservation flag
of the first flower with a matching id; no effect when absent. -/
def releaseReservation : List Flower → ℕ → List Flower
  | [], _ => []
  | f :: rest, fid =>
    if f.id = fid then { f with reserved := false } :: rest
    else f :: releaseReservation rest fid

/-- `FlowerField.get(flower_id)` (also `World.get_flower`): first flower with
a matching id, if any. -/
def fieldGet (field : List Flower) (fid : ℕ) : Option Flower :=
  field.find? (fun f => f.id == fid)

/-- `FlowerField.remaining()`: the number of available flowers. -/
def remaining (field : List Flower) : ℕ :=
  (field.filter (fun f => decide f.available)).length

/-! ## Roles (`bee_sim/domain/agents/roles.py`) -/

/-- The canonical role names (`Role = Literal[...]`). -/
inductive Role where
  | forager | receiver | nurse | fanner | guard | idle
  deriving Repr, DecidableEq

/-- `RoleDrives`: one continuous propensity per behavioral role. -/
structure RoleDrives where
  forager : ℚ := 0
  receiver : ℚ := 0
  nurse : ℚ := 0
  fanner : ℚ := 0
  guard : ℚ := 0
  deriving Repr, DecidableEq

/-- `RoleDrives.score(role)`: `getattr(self, role, 0.0)` — the drive of the
named role, defaulting to `0` for `idle` (which has no drive attribute). -/
def RoleDrives.score (d : RoleDrives) : Role → ℚ
  | .forager => d.forager
  | .receiver => d.receiver
  | .nurse => d.nurse
  | .fanner => d.fanner
  | .guard => d.guard
  | .idle => 0

/-- The candidate list scanned by `RolePolicy.choose`. -/
def roleCandidates : List Role := [.forager, .receiver, .nurse, .fanner, .guard]

/-- `RolePolicy` state: hysteresis margin, minimum dwell, current role and
dwell timer. -/
structure RolePolicy where
  hysteresis : ℚ := 1/4
  min_dwell : ℚ := 3
  current : Role := .forager
  dwell_t : ℚ := 0
  deriving Repr, DecidableEq

/-- `RolePolicy.tick(dt)`: `self._dwell_t += max(0.0, dt)`. -/
def RolePolicy.tick (p : RolePolicy) (dt : ℚ) : RolePolicy :=
  { p with dwell_t := p.dwell_t + max 0 dt }

/-- `RolePolicy.force(role)`: switch unconditionally, resetting the dwell
timer. -/
def RolePolicy.force (p : RolePolicy) (r : Role) : RolePolicy :=
  { p with current := r, dwell_t := 0 }

/-- The argmax loop in `RolePolicy.choose`: starting from
`(current, score current)`, replace the best on a strictly larger score. -/
def bestScan (d : RoleDrives) : List Role → Role → ℚ → Role × ℚ
  | [], best, bestS => (best, bestS)
  | r :: rest, best, bestS =>
    if d.score r > bestS then bestScan d rest r (d.score r)
    else bestScan d rest best bestS

/-- `RolePolicy.choose(drives)`: pick the best-scoring candidate, then switch
only if it differs from the current role, the dwell timer has reached
`min_dwell`, and the margin test passes; return the (possibly updated)
policy state whose `current` is the chosen role. -/
def RolePolicy.choose (p : RolePolicy) (d : RoleDrives) : RolePolicy :=
  let bb := bestScan d roleCandidates p.current (d.score p.current)
  if bb.1 ≠ p.current ∧ p.dwell_t ≥ p.min_dwell ∧
      bb.2 ≥ d.score p.current + p.hysteresis then
    p.force bb.1
  else p

/-- The maximum drive score over the five scanned candidates. -/
def maxCandidateScore (d : RoleDrives) : ℚ :=
  max d.forager (max d.receiver (max d.nurse (max d.fanner d.guard)))

/-! ## Signals (`bee_sim/domain/communication/signals.py`)

Signal numerics use `ℝ` because the source applies `exp`, `cos` and `hypot`
to these fields; the resulting definitions are necessarily noncomputable. -/

/-- Dataclass `Signal`: a short-lived spatial emission.  The payload, used
only for recruitment target coordinates `{"tx": ..., "ty": ...}`, is
modelled as an optional coordinate pair. -/
structure Signal where
  kind : String
  x : ℝ
  y : ℝ
  radius : ℝ := 50
  intensity : ℝ := 1
  decay : ℝ := 1/2
  ttl : ℝ := 2
  source_id : ℕ := 0
  payload : Option (ℝ × ℝ) := none

/-- Distance from the emission point, `math.hypot(px - x, py - y)`. -/
noncomputable def Signal.distTo (s : Signal) (px py : ℝ) : ℝ :=
  Real.sqrt ((px - s.x) ^ 2 + (py - s.y) ^ 2)

/-- The body of `Signal.falloff` as a function of the distance `d`:
`0` at distance `≥ radius` or for degenerate radius `≤ 1e-6`, otherwise the
cosine interpolation `0.5 * (1 + cos(pi * d/radius))`. -/
noncomputable def Signal.falloffAtDist (s : Signal) (d : ℝ) : ℝ :=
  if d ≥ s.radius ∨ s.radius ≤ 1/1000000 then 0
  else 0.5 * (1 + Real.cos (Real.pi * (d / s.radius)))

/-- `Signal.falloff(px, py)`: spatial attenuation at a query point. -/
noncomputable def Signal.falloff (s : Signal) (px py : ℝ) : ℝ :=
  s.falloffAtDist (s.distTo px py)

/-- `Signal.strength_at(px, py) = intensity * falloff(px, py)` (also exposed
as `sense_strength`). -/
noncomputable def Signal.strengthAt (s : Signal) (px py : ℝ) : ℝ :=
  s.intensity * s.falloff px py

/-- `Signal.step(dt)`: no-op for `dt <= 0`, otherwise exponential intensity
decay with the decay rate clamped below at `0`, and ttl countdown. -/
noncomputable def Signal.step (s : Signal) (dt : ℝ) : Signal :=
  if dt ≤ 0 then s
  else { s with
           intensity := s.intensity * Real.exp (-(max 0 s.decay) * dt),
           ttl := s.ttl - dt }

/-- `Signal.alive`: `ttl > 0 and intensity > 1e-6`. -/
def Signal.alive (s : Signal) : Prop := s.ttl > 0 ∧ s.intensity > 1/1000000

noncomputable instance (s : Signal) : Decidable s.alive := by
  unfold Signal.alive; infer_instance

/-- The bus state is its list of live signals, in insertion order (the
per-kind index `_by_kind` always holds exactly the signals of each kind in
list order, so it is derived rather than stored). -/
abbrev SignalBus := List Signal

/-- `SignalBus.emit(sig)`: append. -/
def busEmit (bus : SignalBus) (s : Signal) : SignalBus := bus ++ [s]

/-- `SignalBus.step(dt)`: advance every signal, keep the live ones (the
early return on an empty list is the identity either way). -/
noncomputable def busStep (bus : SignalBus) (dt : ℝ) : SignalBus :=
  if bus.isEmpty then bus
  else (bus.map (fun s => s.step dt)).filter (fun s => decide s.alive)

/-- The `pool` computed identically at the top of `strongest` and `query`:
all signals when `kinds is None`, otherwise the concatenation over the given
kinds of the per-kind index lists (each index list holds that kind's signals
in insertion order). -/
def busPool (bus : SignalBus) : Option (List String) → List Signal
  | none => bus
  | some ks => ks.flatMap (fun k => bus.filter (fun s => s.kind == k))

/-- The scan loop of `SignalBus.strongest`: running best signal and best
value (initially `None` and `0.0`), replaced on a strictly larger value. -/
noncomputable def strongestScan {α : Type} (val : α → ℝ) :
    List α → Option α → ℝ → Option α
  | [], best, _ => best
  | a :: rest, best, bestVal =>
    if val a > bestVal then strongestScan val rest (some a) (val a)
    else strongestScan val rest best bestVal

/-- `SignalBus.strongest(x, y, kinds)`. -/
noncomputable def busStrongest (bus : SignalBus) (x y : ℝ)
    (kinds : Option (List String)) : Option Signal :=
  strongestScan (fun s => s.strengthAt x y) (busPool bus kinds) none 0

/-- Stable insertion into a descending list: the inserted element goes in
front of the first strictly-smaller key, after equal keys already placed. -/
noncomputable def insertDescBy {α : Type} (val : α → ℝ) (a : α) :
    List α → List α
  | [] => [a]
  | b :: l => if val a ≥ val b then a :: b :: l else b :: insertDescBy val a l

/-- Stable descending sort by key, modelling Python's stable
`scored.sort(key=strength, reverse=True)`: equal keys keep their original
relative order. -/
noncomputable def sortDescBy {α : Type} (val : α → ℝ) : List α → List α
  | [] => []
  | a :: l => insertDescBy val a (sortDescBy val l)

/-- `SignalBus.query(x, y, kinds, min_strength, limit)` (the
`with_strength=False` form used by the sim): score the pool, drop entries
below `min_strength`, sort strongest-first (stable), truncate to `limit`
when `limit > 0`, and return the signals. -/
noncomputable def busQuery (bus : SignalBus) (x y : ℝ)
    (kinds : Option (List String)) (minStrength : ℝ) (limit : ℕ) :
    List Signal :=
  let scored : List (Signal × ℝ) :=
    (busPool bus kinds).filterMap (fun s =>
      if s.strengthAt x y ≥ minStrength then some (s, s.strengthAt x y)
      else none)
  let sorted := sortDescBy (fun sv => sv.2) scored
  let truncated := if 0 < limit then sorted.take limit else sorted
  truncated.map (fun sv => sv.1)

/-- First element attaining the maximum key (earlier entries win ties),
the specification both `strongest` and the head of the sorted `query`
result are proved to satisfy. -/
noncomputable def firstMaxBy {α : Type} (val : α → ℝ) : List α → Option α
  | [] => none
  | a :: l =>
    match firstMaxBy val l with
    | none => some a
    | some b => if val a ≥ val b then some a else some b

/-- Number of bus signals of a given kind. -/
def countKind (bus : SignalBus) (k : String) : ℕ :=
  (bus.filter (fun s => s.kind == k)).length

/-! ## Weather (`bee_sim/domain/environment/weather.py`) -/

/-- `Weather` state (the cached `_nectar` output needs `ℝ` for the cosine
daylight profile). -/
structure Weather where
  day_len : ℚ := 600
  t : ℚ := 0
  mode : String := "auto"
  manual_flow : ℚ := 7/10
  rain : Bool := false
  nectar : ℝ := 7/10
  isOpen : Bool := true

/-- Nonnegative remainder, `a % b` of Python for `b > 0`. -/
def qmod (a b : ℚ) : ℚ := a - b * ⌊a / b⌋

/-- `Weather.step(dt)`: advance time of day, recompute the diurnal nectar
flow (bell-shaped around midday in auto mode, the manual level otherwise)
and the foraging-open flag. -/
noncomputable def weatherStep (wx : Weather) (dt : ℚ) : Weather :=
  if dt ≤ 0 then wx
  else
    let t' := qmod (wx.t + dt) wx.day_len
    let tod := t' / wx.day_len
    let nectar : ℝ :=
      if wx.mode = "auto" then
        0.15 + 0.85 * (0.5 * (1 - Real.cos ((tod : ℝ) * 2 * Real.pi)))
      else (wx.manual_flow : ℝ)
    let openFlag := !wx.rain && decide (tod > 2/25 ∧ tod < 23/25)
    { wx with t := t', nectar := max 0 (min 1 nectar), isOpen := openFlag }

/-! ## Flower stepping (`Flower.step` / `FlowerField.step`) -/

/-- `Flower.frac()`: fill fraction clamped to `[0,1]`, `0` for `cap <= 0`. -/
def Flower.frac (f : Flower) : ℚ :=
  if f.cap ≤ 0 then 0 else max 0 (min 1 (f.nectar / f.cap))

/-- `Flower.step(dt)`: saturating regrowth toward `cap`. -/
def Flower.step (f : Flower) (dt : ℚ) : Flower :=
  if dt ≤ 0 then f
  else if f.nectar < f.cap then
    { f with nectar := min f.cap (f.nectar + f.regen_rate * (1 - f.frac) * dt) }
  else f

/-! ## World (`bee_sim/domain/environment/world.py`) -/

/-- `World` state restricted to the fields the core touches (rng omitted:
it is used only for initial placement, never in `World.step`).  The
`receiver_queue` belongs to the embedded `Hive` (`world._hive`). -/
structure World where
  width : ℕ
  height : ℕ
  hive : ℚ × ℚ
  hive_radius : ℚ
  receiver_queue : ℚ := 0
  signals : SignalBus := []
  flowers : List Flower := []
  total_deposited : ℚ := 0
  weather : Weather := {}
  queue_ema : ℝ := 0
  queue_tau : ℚ := 2

/-- `World.deposit(nectar)`: add to the running total when positive. -/
def World.deposit (w : World) (nectar : ℚ) : World :=
  if nectar > 0 then { w with total_deposited := w.total_deposited + nectar }
  else w

/-- `World.step(dt)`: guard on `dt <= 0`, step the weather, step every
flower, and update the queue-pressure EMA.  (The signal bus is not touched
here — this is exactly what the source does.) -/
noncomputable def worldStep (w : World) (dt : ℚ) : World :=
  if dt ≤ 0 then w
  else
    let weather' := weatherStep w.weather dt
    let flowers' := w.flowers.map (fun f => f.step dt)
    let alpha : ℝ :=
      1 - Real.exp (-(max (1/1000000) (dt : ℝ)) / max (1/1000000) (w.queue_tau : ℝ))
    { w with
        weather := weather',
        flowers := flowers',
        queue_ema := w.queue_ema + ((w.receiver_queue : ℝ) - w.queue_ema) * alpha }

/-! ## Worker forager FSM (`bee_sim/domain/agents/worker.py`) -/

/-- The forager trip sub-states. -/
inductive WorkerState where
  | wander | toFlower | toHive
  deriving Repr, DecidableEq

/-- Worker fields used by the forager behavior.  `avoid` is the
`deque(maxlen=16)` of recently visited flower ids. -/
structure Worker where
  id : ℕ
  x : ℚ
  y : ℚ
  state : WorkerState := .wander
  target_flower_id : Option ℕ := none
  carry : ℚ := 0
  capacity : ℚ := 3
  avoid : List ℕ := []
  recruit_target : Option (ℚ × ℚ) := none
  last_flower_xy : Option (ℚ × ℚ) := none
  deriving Repr, DecidableEq

/-- `WorkerBee.VISIT_QUANTA`. -/
def visitQuanta : ℚ := 4/5
/-- `WorkerBee.WAGGLE_THRESHOLD`. -/
def waggleThreshold : ℚ := 1
/-- `WorkerBee.WAGGLE_TTL`. -/
def waggleTTL : ℚ := 6

/-- Append to the bounded avoid memory, dropping the oldest entries beyond
the deque's `maxlen=16`. -/
def avoidAppend (l : List ℕ) (i : ℕ) : List ℕ :=
  let l' := l ++ [i]
  if l'.length > 16 then l'.drop (l'.length - 16) else l'

/-- A movement side effect of a behavior branch.  `_go_towards` sets the
velocity along `cos/sin(atan2(dy, dx))` — an irrational direction — so the
steering call is recorded as data (target, delta-time, speed scale) instead
of being applied numerically; no verified claim concerns the numeric
trajectory. -/
inductive MoveEff where
  | idle : MoveEff
  | toward (tx ty dt scale : ℚ) : MoveEff
  deriving Repr, DecidableEq

/-- The waggle signal emitted on delivery (lines 103–108 of `worker.py`):
kind `waggle` at the hive center, radius `40`, intensity
`min(2.5, 0.8 + 0.4 * carry)` (computed exactly in `ℚ` and cast — the cast
commutes with `min`), decay `0.35`, ttl `WAGGLE_TTL`, payload the last
collection location. -/
def waggleSignal (hx hy : ℚ) (carry : ℚ) (sourceId : ℕ) (lx ly : ℚ) : Signal :=
  { kind := "waggle", x := (hx : ℝ), y := (hy : ℝ), radius := 40,
    intensity := ((min (5/2) (4/5 + 2/5 * carry) : ℚ) : ℝ),
    decay := 0.35, ttl := ((waggleTTL : ℚ) : ℝ), source_id := sourceId,
    payload := some ((lx : ℝ), (ly : ℝ)) }

/-- The `to_flower` branch of `WorkerBee._behave_forager` (lines 68–92).
Flower ids start at `1`, so the Python truthiness test
`if self.target_flower_id` coincides with the `Option` match. -/
def stepToFlower (w : World) (b : Worker) (dt : ℚ) :
    World × Worker × MoveEff :=
  let fOpt : Option Flower :=
    match b.target_flower_id with
    | none => none
    | some tid => fieldGet w.flowers tid
  match fOpt with
  | none =>
    -- `if not f or not f.available`: release any recorded reservation,
    -- forget the target and resume wandering.
    let flowers' :=
      match b.target_flower_id with
      | some tid => releaseReservation w.flowers tid
      | none => w.flowers
    ({ w with flowers := flowers' },
     { b with target_flower_id := none, state := .wander }, .idle)
  | some f =>
    if ¬f.available then
      let flowers' :=
        match b.target_flower_id with
        | some tid => releaseReservation w.flowers tid
        | none => w.flowers
      ({ w with flowers := flowers' },
       { b with target_flower_id := none, state := .wander }, .idle)
    else if (f.x - b.x) ^ 2 + (f.y - b.y) ^ 2 < 100 then
      -- arrival: `dist < 10.0`
      let amount := min visitQuanta (b.capacity - b.carry)
      let r := collectFrom w.flowers f.id amount
      let got := r.1
      let flowers₁ := r.2
      let carry' := b.carry + got
      let avoid' := if 0 < got then avoidAppend b.avoid f.id else b.avoid
      let lastXY' := if 0 < got then some (f.x, f.y) else b.last_flower_xy
      if carry' + 1/1000000 < b.capacity ∧ 0 < remaining flowers₁ then
        match reserveNearest flowers₁ b.x b.y avoid' with
        | (some nf, flowers₂) =>
          ({ w with flowers := flowers₂ },
           { b with carry := carry', avoid := avoid',
                    last_flower_xy := lastXY',
                    target_flower_id := some nf.id, state := .toFlower },
           .idle)
        | (none, flowers₂) =>
          ({ w with flowers := flowers₂ },
           { b with carry := carry', avoid := avoid',
                    last_flower_xy := lastXY',
                    target_flower_id := none, state := .toHive }, .idle)
      else
        ({ w with flowers := flowers₁ },
         { b with carry := carry', avoid := avoid',
                  last_flower_xy := lastXY',
                  target_flower_id := none, state := .toHive }, .idle)
    else
      (w, b, .toward f.x f.y dt (3/5))

/-- The `to_hive` branch of `WorkerBee._behave_forager` (lines 94–112):
on arrival (`dist < hive_radius + 10`) deposit the carried nectar and, when
the carry reaches `WAGGLE_THRESHOLD` and a last collection location is
remembered, emit the waggle advertisement; then clear the carry and resume
wandering.  No other signal kind is ever emitted on this path. -/
def stepToHive (w : World) (b : Worker) (dt : ℚ) :
    World × Worker × MoveEff :=
  let hx := w.hive.1
  let hy := w.hive.2
  if (hx - b.x) ^ 2 + (hy - b.y) ^ 2 < (w.hive_radius + 10) ^ 2 then
    if b.carry > 0 then
      let w₁ := w.deposit b.carry
      let w₂ :=
        match b.last_flower_xy with
        | some (lx, ly) =>
          if b.carry ≥ waggleThreshold then
            { w₁ with signals := busEmit w₁.signals (waggleSignal hx hy b.carry b.id lx ly) }
          else w₁
        | none => w₁
      (w₂, { b with carry := 0, state := .wander }, .idle)
    else (w, { b with state := .wander }, .idle)
  else
    (w, b, .toward hx hy dt (3/5))

/-! ## Concrete fixtures used by counterexamples and witnesses -/

/-- A live signal with no intensity decay and half a second to live. -/
noncomputable def demoSignal : Signal :=
  { kind := "waggle", x := 0, y := 0, radius := 40, intensity := 1,
    decay := 0, ttl := 1/2 }

/-- A signal whose decay rate is negative (the dataclass accepts it). -/
noncomputable def negDecaySignal : Signal :=
  { kind := "waggle", x := 0, y := 0, radius := 50, intensity := 1,
    decay := -1, ttl := 2 }

/-- A signal whose radius is positive but below the `1e-6` degeneracy cut. -/
noncomputable def tinyRadiusSignal : Signal :=
  { kind := "waggle", x := 0, y := 0, radius := 1/10000000, intensity := 1,
    decay := 1/2, ttl := 2 }

/-- A signal with negative intensity (the dataclass accepts it). -/
noncomputable def negIntensitySignal : Signal :=
  { kind := "waggle", x := 0, y := 0, radius := 2, intensity := -1,
    decay := 1/2, ttl := 2 }

/-! ## C2 — the tick driver never steps the signal bus -/

/-- **C2** (code bug). The spec requires the world/tick driver to invoke
`SignalBus.step(dt)` once per tick before the agent pass, but `World.step`
only steps the weather, the flowers and the queue EMA: the signal bus it
owns is returned untouched for every state and every `dt`.  The second
conjunct shows the omission is observable: stepping the one-signal demo bus
by `dt = 1` removes the expired signal, so the required call is not a
no-op. -/
theorem worldStep_never_steps_signal_bus :
    (∀ (w : World) (dt : ℚ), (worldStep w dt).signals = w.signals) ∧
      busStep [demoSignal] 1 ≠ [demoSignal] := by
  constructor
  · intro w dt
    unfold worldStep
    split <;> rfl
  · intro h
    have h0 : busStep [demoSignal] 1 = [] := by
      unfold busStep Signal.alive Signal.step demoSignal
      norm_num
    rw [h0] at h
    exact List.cons_ne_nil _ _ h.symm

/-! ## C9 — signal construction performs no validation -/

/-- **C9** (counterexample). Constructing a `Signal` with negative radius
and negative decay is not rejected: the dataclass stores the fields
verbatim and the value is a perfectly usable `Signal`. -/
theorem signal_construction_accepts_invalid :
    (Signal.mk "waggle" 0 0 (-5) 1 (-1) 2 0 none).radius = -5 ∧
      (Signal.mk "waggle" 0 0 (-5) 1 (-1) 2 0 none).decay = -1 := by
  exact ⟨rfl, rfl⟩

/-- **C9** (amended). Construction silently accepts any radius and decay;
the falloff and stepping code guard the math instead: `falloff` is `0`
whenever `radius ≤ 1e-6` (hence for every non-positive radius), and `step`
clamps the decay rate below at `0`. -/
theorem signal_construction_unvalidated_but_guarded
    (k : String) (x y r i dc t : ℝ) (sid : ℕ) (pl : Option (ℝ × ℝ)) :
    (Signal.mk k x y r i dc t sid pl).radius = r ∧
      (Signal.mk k x y r i dc t sid pl).decay = dc ∧
      (r ≤ 1/1000000 → ∀ px py,
        (Signal.mk k x y r i dc t sid pl).falloff px py = 0) ∧
      (∀ dt : ℝ, 0 < dt →
        ((Signal.mk k x y r i dc t sid pl).step dt).intensity =
          i * Real.exp (-(max 0 dc) * dt)) := by
  refine ⟨rfl, rfl, ?_, ?_⟩
  · intro hr px py
    unfold Signal.falloff Signal.falloffAtDist
    simp only
    rw [if_pos]
    exact Or.inr hr
  · intro dt hdt
    unfold Signal.step
    rw [if_neg (by linarith)]

/-- **C9** witness: the amended statement applied to the concrete invalid
construction (`radius = -5`, `decay = -1`) with its hypotheses discharged at
`dt = 1`. -/
theorem signal_construction_unvalidated_but_guarded_witness :
    (-5 : ℝ) ≤ 1/1000000 ∧ (0:ℝ) < 1 ∧
      (Signal.mk "waggle" 0 0 (-5) 1 (-1) 2 0 none).falloff 3 4 = 0 ∧
      ((Signal.mk "waggle" 0 0 (-5) 1 (-1) 2 0 none).step 1).intensity =
        1 * Real.exp (-(max 0 (-1 : ℝ)) * 1) := by
  refine ⟨by norm_num, by norm_num, ?_, ?_⟩
  · exact (signal_construction_unvalidated_but_guarded
      "waggle" 0 0 (-5) 1 (-1) 2 0 none).2.2.1 (by norm_num) 3 4
  · exact (signal_construction_unvalidated_but_guarded
      "waggle" 0 0 (-5) 1 (-1) 2 0 none).2.2.2 1 (by norm_num)

/-! ## C5 — decay/ttl semantics of `Signal.step` and `SignalBus.step` -/

/-- **C5** (counterexample). For a signal whose decay rate is negative
(accepted by the constructor, see C9) the claimed law
`intensity' = I₀·exp(−k·dt)` fails: `step` clamps the rate at `0`, so the
intensity stays `1` where the claim demands `exp 1`. -/
theorem signal_step_negative_decay_breaks_law :
    (negDecaySignal.step 1).intensity = 1 ∧
      negDecaySignal.intensity * Real.exp (-negDecaySignal.decay * 1) =
        Real.exp 1 ∧
      (1 : ℝ) ≠ Real.exp 1 := by
  refine ⟨?_, ?_, ?_⟩
  · unfold Signal.step negDecaySignal
    norm_num
  · unfold negDecaySignal
    norm_num
  · intro h
    have h2 := Real.add_one_le_exp (1 : ℝ)
    rw [← h] at h2
    norm_num at h2

/-- **C5** (amended). For every signal with nonnegative decay rate `k` and
every `dt ≥ 0`, `step dt` yields intensity `I₀·exp(−k·dt)` and decreases the
ttl by `dt` (for a negative rate the clamped value `max 0 k` replaces `k`);
a step with `dt ≤ 0` leaves the signal unchanged; and after a bus step every
surviving signal is live (ttl > 0 and intensity > 1e-6) and is the stepped
image of a signal that was already on the bus — dead signals are removed and
never revived. -/
theorem signal_step_decay_ttl_spec (s : Signal) (bus : SignalBus) (dt : ℝ) :
    (0 ≤ s.decay → 0 ≤ dt →
      (s.step dt).intensity = s.intensity * Real.exp (-s.decay * dt) ∧
        (s.step dt).ttl = s.ttl - dt) ∧
      (dt ≤ 0 → s.step dt = s) ∧
      (∀ s' ∈ busStep bus dt, s'.alive) ∧
      (∀ s' ∈ busStep bus dt, ∃ s₀ ∈ bus, s' = s₀.step dt) := by
  refine ⟨?_, ?_, ?_, ?_⟩
  · intro hk hdt
    rcases eq_or_lt_of_le hdt with h0 | hpos
    · unfold Signal.step
      rw [if_pos (le_of_eq h0.symm)]
      rw [← h0]
      simp
    · unfold Signal.step
      rw [if_neg (by linarith)]
      rw [max_eq_right hk]
      exact ⟨rfl, rfl⟩
  · intro hdt
    unfold Signal.step
    rw [if_pos hdt]
  · intro s' hs'
    unfold busStep at hs'
    split at hs'
    · simp_all [List.isEmpty_iff]
    · rw [List.mem_filter] at hs'
      exact of_decide_eq_true hs'.2
  · intro s' hs'
    unfold busStep at hs'
    split at hs'
    · simp_all [List.isEmpty_iff]
    · rw [List.mem_filter, List.mem_map] at hs'
      obtain ⟨⟨s₀, h₀, rfl⟩, _⟩ := hs'
      exact ⟨s₀, h₀, rfl⟩

/-- **C5** witness: the amended statement at the demo signal (decay `0`),
`dt = 0` for the unchanged clause and the empty bus, all hypotheses
discharged concretely. -/
theorem signal_step_decay_ttl_spec_witness :
    (0 : ℝ) ≤ demoSignal.decay ∧ (0 : ℝ) ≤ 0 ∧ ((0 : ℝ) ≤ 0) ∧
      ((demoSignal.step 0).intensity =
          demoSignal.intensity * Real.exp (-demoSignal.decay * 0) ∧
        (demoSignal.step 0).ttl = demoSignal.ttl - 0) ∧
      demoSignal.step 0 = demoSignal := by
  refine ⟨?_, le_refl 0, le_refl 0, ?_, ?_⟩
  · unfold demoSignal; norm_num
  · exact (signal_step_decay_ttl_spec demoSignal [] 0).1
      (by unfold demoSignal; norm_num) (le_refl 0)
  · exact (signal_step_decay_ttl_spec demoSignal [] 0).2.1 (le_refl 0)

/-! ## C6 — spatial falloff of `strength_at` -/

/-- **C6** (counterexample). Two constructible signals break the claimed
falloff laws: with radius `1e-7` (positive, so the emission point is inside
`[0, radius)`) the degeneracy guard `radius <= 1e-6` makes `strength_at`
return `0` instead of the intensity `1` at distance `0`; and with intensity
`-1` the strength strictly increases from distance `0` to distance `1`
inside `[0, radius)`, violating monotone non-increase. -/
theorem strength_at_counterexample :
    tinyRadiusSignal.distTo 0 0 = 0 ∧
      0 < tinyRadiusSignal.radius ∧
      tinyRadiusSignal.strengthAt 0 0 = 0 ∧
      tinyRadiusSignal.intensity = 1 ∧
      (0 : ℝ) ≠ 1 ∧
      negIntensitySignal.distTo 1 0 = 1 ∧
      (1 : ℝ) < negIntensitySignal.radius ∧
      negIntensitySignal.strengthAt 0 0 < negIntensitySignal.strengthAt 1 0 := by
  have hd0 : tinyRadiusSignal.distTo 0 0 = 0 := by
    unfold Signal.distTo tinyRadiusSignal
    norm_num
  have hd1 : negIntensitySignal.distTo 1 0 = 1 := by
    unfold Signal.distTo negIntensitySignal
    norm_num
  have hd0' : negIntensitySignal.distTo 0 0 = 0 := by
    unfold Signal.distTo negIntensitySignal
    norm_num
  have hstiny : tinyRadiusSignal.strengthAt 0 0 = 0 := by
    unfold Signal.strengthAt Signal.falloff
    rw [hd0]
    unfold Signal.falloffAtDist tinyRadiusSignal
    norm_num
  have hneg0 : negIntensitySignal.strengthAt 0 0 = -1 := by
    unfold Signal.strengthAt Signal.falloff
    rw [hd0']
    unfold Signal.falloffAtDist negIntensitySignal
    norm_num
  have hneg1 : negIntensitySignal.strengthAt 1 0 = -(1/2) := by
    unfold Signal.strengthAt Signal.falloff
    rw [hd1]
    unfold Signal.falloffAtDist negIntensitySignal
    simp only
    rw [if_neg (by norm_num)]
    have hhalf : Real.pi * ((1 : ℝ) / 2) = Real.pi / 2 := by ring
    rw [hhalf, Real.cos_pi_div_two]
    norm_num
  refine ⟨hd0, by unfold tinyRadiusSignal; norm_num, hstiny,
    by unfold tinyRadiusSignal; norm_num, by norm_num, hd1,
    by unfold negIntensitySignal; norm_num, ?_⟩
  rw [hneg0, hneg1]
  norm_num

/-- **C6** (amended). For every signal whose radius exceeds the `1e-6`
degeneracy cut and whose intensity is nonnegative: `strength_at` is `0` at
any distance `≥ radius`, equals the intensity exactly at the emission
point, is monotonically non-increasing in distance within `[0, radius)`,
and follows the cosine falloff `(cos(π·d/radius) + 1)/2` there. -/
theorem strength_at_falloff_spec (s : Signal)
    (hr : 1/1000000 < s.radius) (hi : 0 ≤ s.intensity) :
    (∀ px py, s.radius ≤ s.distTo px py → s.strengthAt px py = 0) ∧
      s.strengthAt s.x s.y = s.intensity ∧
      (∀ d₁ d₂ : ℝ, 0 ≤ d₁ → d₁ ≤ d₂ → d₂ < s.radius →
        s.intensity * s.falloffAtDist d₂ ≤ s.intensity * s.falloffAtDist d₁) ∧
      (∀ d : ℝ, 0 ≤ d → d < s.radius →
        s.falloffAtDist d = (Real.cos (Real.pi * d / s.radius) + 1) / 2) := by
  have hrpos : (0 : ℝ) < s.radius := lt_trans (by norm_num) hr
  have hfall : ∀ d : ℝ, d < s.radius →
      s.falloffAtDist d = 0.5 * (1 + Real.cos (Real.pi * (d / s.radius))) := by
    intro d hdlt
    unfold Signal.falloffAtDist
    rw [if_neg]
    push_neg
    exact ⟨hdlt, hr⟩
  refine ⟨?_, ?_, ?_, ?_⟩
  · intro px py hd
    unfold Signal.strengthAt Signal.falloff Signal.falloffAtDist
    rw [if_pos (Or.inl hd)]
    ring
  · have hd0 : s.distTo s.x s.y = 0 := by
      unfold Signal.distTo
      norm_num
    unfold Signal.strengthAt Signal.falloff
    rw [hd0, hfall 0 hrpos]
    norm_num
  · intro d₁ d₂ h0 h12 h2r
    have h1r : d₁ < s.radius := lt_of_le_of_lt h12 h2r
    rw [hfall d₁ h1r, hfall d₂ h2r]
    have hcos : Real.cos (Real.pi * (d₂ / s.radius)) ≤
        Real.cos (Real.pi * (d₁ / s.radius)) := by
      apply Real.cos_le_cos_of_nonneg_of_le_pi
      · have hq : (0 : ℝ) ≤ d₁ / s.radius := div_nonneg h0 (le_of_lt hrpos)
        exact mul_nonneg Real.pi_pos.le hq
      · have hle : d₂ / s.radius ≤ 1 := by
          rw [div_le_one hrpos]
          exact le_of_lt h2r
        calc Real.pi * (d₂ / s.radius) ≤ Real.pi * 1 :=
              mul_le_mul_of_nonneg_left hle Real.pi_pos.le
          _ = Real.pi := mul_one _
      · have hdiv : d₁ / s.radius ≤ d₂ / s.radius := by
          gcongr
        exact mul_le_mul_of_nonneg_left hdiv Real.pi_pos.le
    apply mul_le_mul_of_nonneg_left _ hi
    linarith
  · intro d _ hdr
    rw [hfall d hdr, mul_div_assoc]
    ring

/-- A well-formed signal (radius `50`, intensity `2`) for the C6 witness. -/
noncomputable def wideSignal : Signal :=
  { kind := "waggle", x := 0, y := 0, radius := 50, intensity := 2,
    decay := 1/5, ttl := 3 }

/-- **C6** witness: the amended falloff spec applied to `wideSignal`, its
hypotheses discharged concretely; the boundary clause is instanced at the
point `(50, 0)`, which lies exactly at distance `radius`, and the
monotonicity clause at distances `0 ≤ 1 < 50`. -/
theorem strength_at_falloff_spec_witness :
    (1/1000000 : ℝ) < wideSignal.radius ∧ (0 : ℝ) ≤ wideSignal.intensity ∧
      wideSignal.strengthAt 50 0 = 0 ∧
      wideSignal.strengthAt wideSignal.x wideSignal.y = wideSignal.intensity ∧
      wideSignal.intensity * wideSignal.falloffAtDist 1 ≤
        wideSignal.intensity * wideSignal.falloffAtDist 0 ∧
      wideSignal.falloffAtDist 1 =
        (Real.cos (Real.pi * 1 / wideSignal.radius) + 1) / 2 := by
  have h1 : (1/1000000 : ℝ) < wideSignal.radius := by
    unfold wideSignal; norm_num
  have h2 : (0 : ℝ) ≤ wideSignal.intensity := by
    unfold wideSignal; norm_num
  have hdist : wideSignal.radius ≤ wideSignal.distTo 50 0 := by
    unfold Signal.distTo wideSignal
    simp only
    have he : ((50 : ℝ) - 0) ^ 2 + ((0 : ℝ) - 0) ^ 2 = 50 ^ 2 := by norm_num
    rw [he, Real.sqrt_sq (by norm_num)]
  exact ⟨h1, h2,
    (strength_at_falloff_spec wideSignal h1 h2).1 50 0 hdist,
    (strength_at_falloff_spec wideSignal h1 h2).2.1,
    (strength_at_falloff_spec wideSignal h1 h2).2.2.1 0 1 (le_refl 0)
      (by norm_num) (by unfold wideSignal; norm_num),
    (strength_at_falloff_spec wideSignal h1 h2).2.2.2 1 (by norm_num)
      (by unfold wideSignal; norm_num)⟩

/-! ## C4 — hysteresis/dwell role switching -/

/-- The running best value of the `choose` scan is the fold of `max` over
the candidate scores, seeded with the incumbent's value. -/
theorem bestScan_snd (d : RoleDrives) :
    ∀ (l : List Role) (b : Role) (s : ℚ),
      (bestScan d l b s).2 = l.foldl (fun m r => max m (d.score r)) s := by
  intro l
  induction l with
  | nil => intro b s; rfl
  | cons r rest ih =>
    intro b s
    unfold bestScan
    by_cases h : d.score r > s
    · rw [if_pos h, ih, List.foldl_cons, max_eq_right (le_of_lt h)]
    · rw [if_neg h, ih, List.foldl_cons, max_eq_left (not_lt.mp h)]

/-- The `choose` scan either keeps the seed untouched or returns a strictly
better-scoring candidate from the list. -/
theorem bestScan_cases (d : RoleDrives) :
    ∀ (l : List Role) (b : Role) (s : ℚ),
      bestScan d l b s = (b, s) ∨
        ((bestScan d l b s).1 ∈ l ∧
          d.score (bestScan d l b s).1 = (bestScan d l b s).2 ∧
          s < (bestScan d l b s).2) := by
  intro l
  induction l with
  | nil => intro b s; exact Or.inl rfl
  | cons r rest ih =>
    intro b s
    unfold bestScan
    by_cases h : d.score r > s
    · rw [if_pos h]
      rcases ih r (d.score r) with heq | ⟨hmem, hsc, hlt⟩
      · right
        rw [heq]
        exact ⟨List.mem_cons_self r rest, rfl, h⟩
      · exact Or.inr ⟨List.mem_cons_of_mem r hmem, hsc, lt_trans h hlt⟩
    · rw [if_neg h]
      rcases ih b s with heq | ⟨hmem, hsc, hlt⟩
      · exact Or.inl heq
      · exact Or.inr ⟨List.mem_cons_of_mem r hmem, hsc, hlt⟩

/-- Folding `max` of the five candidate scores over any seed. -/
theorem foldl_candidates (d : RoleDrives) (s : ℚ) :
    roleCandidates.foldl (fun m r => max m (d.score r)) s =
      max s (maxCandidateScore d) := by
  simp only [roleCandidates, List.foldl, maxCandidateScore, RoleDrives.score]
  ac_rfl

/-- **C4**. With a positive hysteresis margin, `choose` switches away from
the current role exactly when the dwell timer has reached `min_dwell` and
the best candidate score beats the current score by at least the margin;
on a switch the new role attains the maximal candidate score and the dwell
timer is reset to `0`; otherwise the policy state is returned unchanged
(so the margin failing blocks the switch for arbitrarily long dwell).
`tick` only accumulates nonnegative dwell time. -/
theorem rolePolicy_choose_spec (p : RolePolicy) (d : RoleDrives)
    (hh : 0 < p.hysteresis) :
    (((p.choose d).current ≠ p.current) ↔
        (p.min_dwell ≤ p.dwell_t ∧
          d.score p.current + p.hysteresis ≤ maxCandidateScore d)) ∧
      ((p.choose d).current ≠ p.current →
        (p.choose d).dwell_t = 0 ∧
          d.score (p.choose d).current = maxCandidateScore d) ∧
      ((p.choose d).current = p.current → p.choose d = p) ∧
      (∀ dt, (p.tick dt).current = p.current ∧
        (p.tick dt).dwell_t = p.dwell_t + max 0 dt) := by
  have hsnd : (bestScan d roleCandidates p.current (d.score p.current)).2 =
      max (d.score p.current) (maxCandidateScore d) := by
    rw [bestScan_snd, foldl_candidates]
  constructor
  · constructor
    · intro hne
      unfold RolePolicy.choose at hne
      by_cases hcond : (bestScan d roleCandidates p.current
          (d.score p.current)).1 ≠ p.current ∧
          p.dwell_t ≥ p.min_dwell ∧
          (bestScan d roleCandidates p.current (d.score p.current)).2 ≥
            d.score p.current + p.hysteresis
      · refine ⟨hcond.2.1, ?_⟩
        have h2 := hcond.2.2
        rw [hsnd] at h2
        rcases max_choice (d.score p.current) (maxCandidateScore d) with hm | hm
        · rw [hm] at h2; linarith
        · rw [hm] at h2; exact h2
      · rw [if_neg hcond] at hne
        exact absurd rfl hne
    · rintro ⟨hdw, hmar⟩
      unfold RolePolicy.choose
      have hmax : max (d.score p.current) (maxCandidateScore d) =
          maxCandidateScore d :=
        max_eq_right (by linarith)
      have hne : (bestScan d roleCandidates p.current
          (d.score p.current)).1 ≠ p.current := by
        rcases bestScan_cases d roleCandidates p.current (d.score p.current)
          with heq | ⟨_, hsc, hlt⟩
        · exfalso
          have : (bestScan d roleCandidates p.current (d.score p.current)).2 =
              d.score p.current := by rw [heq]
          rw [hsnd, hmax] at this
          linarith
        · intro hc
          rw [hc] at hsc
          linarith
      rw [if_pos ⟨hne, hdw, by rw [hsnd, hmax]; linarith⟩]
      exact hne
  refine ⟨?_, ?_, ?_⟩
  · intro hne
    unfold RolePolicy.choose at hne ⊢
    by_cases hcond : (bestScan d roleCandidates p.current
        (d.score p.current)).1 ≠ p.current ∧
        p.dwell_t ≥ p.min_dwell ∧
        (bestScan d roleCandidates p.current (d.score p.current)).2 ≥
          d.score p.current + p.hysteresis
    · rw [if_pos hcond]
      refine ⟨rfl, ?_⟩
      rcases bestScan_cases d roleCandidates p.current (d.score p.current)
        with heq | ⟨_, hsc, hlt⟩
      · exact absurd (by rw [heq]) hcond.1
      · show d.score (bestScan d roleCandidates p.current
            (d.score p.current)).1 = maxCandidateScore d
        rw [hsc]
        rcases max_choice (d.score p.current) (maxCandidateScore d) with hm | hm
        · rw [hsnd, hm] at hlt ⊢
          linarith
        · rw [hsnd, hm]
    · rw [if_neg hcond] at hne
      exact absurd rfl hne
  · intro heq
    unfold RolePolicy.choose at heq ⊢
    by_cases hcond : (bestScan d roleCandidates p.current
        (d.score p.current)).1 ≠ p.current ∧
        p.dwell_t ≥ p.min_dwell ∧
        (bestScan d roleCandidates p.current (d.score p.current)).2 ≥
          d.score p.current + p.hysteresis
    · rw [if_pos hcond] at heq
      exact absurd heq hcond.1
    · rw [if_neg hcond]
  · intro dt
    exact ⟨rfl, rfl⟩

/-- The default-configured policy after five seconds of dwell. -/
def dwellPolicy : RolePolicy :=
  { hysteresis := 1/4, min_dwell := 3, current := .forager, dwell_t := 5 }

/-- Drives favoring the receiver role by a full unit. -/
def receiverDrives : RoleDrives := { receiver := 1 }

/-- **C4** witness: the choose spec applied to the default policy after
five seconds of dwell with drives favoring `receiver`, the positive-margin
hypothesis discharged concretely. -/
theorem rolePolicy_choose_spec_witness :
    0 < dwellPolicy.hysteresis ∧
      (((dwellPolicy.choose receiverDrives).current ≠ dwellPolicy.current) ↔
        (dwellPolicy.min_dwell ≤ dwellPolicy.dwell_t ∧
          receiverDrives.score dwellPolicy.current + dwellPolicy.hysteresis ≤
            maxCandidateScore receiverDrives)) ∧
      ((dwellPolicy.choose receiverDrives).current ≠ dwellPolicy.current →
        (dwellPolicy.choose receiverDrives).dwell_t = 0 ∧
          receiverDrives.score (dwellPolicy.choose receiverDrives).current =
            maxCandidateScore receiverDrives) := by
  refine ⟨by norm_num [dwellPolicy], ?_, ?_⟩
  · exact (rolePolicy_choose_spec dwellPolicy receiverDrives
      (by norm_num [dwellPolicy])).1
  · exact (rolePolicy_choose_spec dwellPolicy receiverDrives
      (by norm_num [dwellPolicy])).2.1

/-! ## Lemmas on the reservation scan and collection -/

/-- If the reservation scan comes back empty, it started empty and no
listed flower qualified. -/
theorem reserveScan_none (x y : ℚ) (avoid : List ℕ) :
    ∀ (l : List Flower) (i : ℕ) (acc : Option (ℕ × Flower × ℚ)),
      reserveScan x y avoid l i acc = none →
        acc = none ∧ ∀ f ∈ l, ¬f.candidate avoid := by
  intro l
  induction l with
  | nil =>
    intro i acc h
    exact ⟨h, by simp⟩
  | cons f rest ih =>
    intro i acc h
    unfold reserveScan at h
    by_cases hc : f.candidate avoid
    · rw [if_pos hc] at h
      rcases hacc : acc with _ | ⟨⟨j, g, bd2⟩⟩
      · rw [hacc] at h
        have := (ih _ _ h).1
        exact absurd this (by simp)
      · rw [hacc] at h
        dsimp only at h
        by_cases hlt : f.d2 x y < bd2
        · rw [if_pos hlt] at h
          have := (ih _ _ h).1
          exact absurd this (by simp)
        · rw [if_neg hlt] at h
          have := (ih _ _ h).1
          exact absurd this (by simp)
    · rw [if_neg hc] at h
      obtain ⟨h1, h2⟩ := ih _ _ h
      refine ⟨h1, ?_⟩
      intro f' hf'
      rcases List.mem_cons.mp hf' with rfl | hmem
      · exact hc
      · exact h2 f' hmem

/-- Any (index, flower, distance) produced by the reservation scan points
into the original field at a qualifying flower with its exact squared
distance, provided the suffix being scanned and the accumulator do. -/
theorem reserveScan_good (x y : ℚ) (avoid : List ℕ) (field : List Flower) :
    ∀ (l : List Flower) (i : ℕ) (acc : Option (ℕ × Flower × ℚ)),
      (∀ (k : ℕ) (f : Flower), l.get? k = some f → field.get? (i + k) = some f) →
      (∀ j g d, acc = some (j, g, d) →
        field.get? j = some g ∧ g.candidate avoid ∧ d = g.d2 x y) →
      ∀ j g d, reserveScan x y avoid l i acc = some (j, g, d) →
        field.get? j = some g ∧ g.candidate avoid ∧ d = g.d2 x y := by
  intro l
  induction l with
  | nil =>
    intro i acc _ hacc j g d h
    exact hacc j g d h
  | cons f rest ih =>
    intro i acc hsub hacc j g d h
    have hhead : field.get? i = some f := by
      have := hsub 0 f rfl
      rwa [Nat.add_zero] at this
    have hsub' : ∀ (k : ℕ) (f' : Flower), rest.get? k = some f' →
        field.get? (i + 1 + k) = some f' := by
      intro k f' hk
      have := hsub (k + 1) f' (by simpa using hk)
      rwa [show i + (k + 1) = i + 1 + k by omega] at this
    unfold reserveScan at h
    by_cases hc : f.candidate avoid
    · rw [if_pos hc] at h
      rcases haccv : acc with _ | ⟨⟨j', g', bd2⟩⟩
      · rw [haccv] at h
        refine ih (i + 1) _ hsub' ?_ j g d h
        rintro j₀ g₀ d₀ heq
        injection heq with heq
        simp only [Prod.mk.injEq] at heq
        obtain ⟨rfl, rfl, rfl⟩ := heq
        exact ⟨hhead, hc, rfl⟩
      · rw [haccv] at h
        dsimp only at h
        by_cases hlt : f.d2 x y < bd2
        · rw [if_pos hlt] at h
          refine ih (i + 1) _ hsub' ?_ j g d h
          rintro j₀ g₀ d₀ heq
          injection heq with heq
          simp only [Prod.mk.injEq] at heq
          obtain ⟨rfl, rfl, rfl⟩ := heq
          exact ⟨hhead, hc, rfl⟩
        · rw [if_neg hlt] at h
          refine ih (i + 1) _ hsub' ?_ j g d h
          rintro j₀ g₀ d₀ heq
          injection heq with heq
          simp only [Prod.mk.injEq] at heq
          obtain ⟨rfl, rfl, rfl⟩ := heq
          exact hacc _ _ _ haccv
    · rw [if_neg hc] at h
      exact ih (i + 1) acc hsub' hacc j g d h

/-- The squared distance returned by the reservation scan is minimal among
the qualifying flowers of the scanned suffix and no larger than the
accumulator's. -/
theorem reserveScan_min (x y : ℚ) (avoid : List ℕ) :
    ∀ (l : List Flower) (i : ℕ) (acc : Option (ℕ × Flower × ℚ))
      (j : ℕ) (g : Flower) (d2 : ℚ),
      reserveScan x y avoid l i acc = some (j, g, d2) →
        (∀ f ∈ l, f.candidate avoid → d2 ≤ f.d2 x y) ∧
          (∀ j' g' d', acc = some (j', g', d') → d2 ≤ d') := by
  intro l
  induction l with
  | nil =>
    intro i acc j g d2 h
    refine ⟨by simp, ?_⟩
    rintro j' g' d' rfl
    injection h with h
    simp only [Prod.mk.injEq] at h
    obtain ⟨-, -, rfl⟩ := h
    exact le_refl _
  | cons f rest ih =>
    intro i acc j g d2 h
    unfold reserveScan at h
    by_cases hc : f.candidate avoid
    · rw [if_pos hc] at h
      rcases haccv : acc with _ | ⟨⟨j', g', bd2⟩⟩
      · rw [haccv] at h
        obtain ⟨hrest, haccmin⟩ := ih (i + 1) _ j g d2 h
        have hf : d2 ≤ f.d2 x y := haccmin i f (f.d2 x y) rfl
        refine ⟨?_, ?_⟩
        · intro f' hf' hcand
          rcases List.mem_cons.mp hf' with rfl | hmem
          · exact hf
          · exact hrest f' hmem hcand
        · rintro j₀ g₀ d₀ h₀
          exact absurd h₀ (by simp)
      · rw [haccv] at h
        dsimp only at h
        by_cases hlt : f.d2 x y < bd2
        · rw [if_pos hlt] at h
          obtain ⟨hrest, haccmin⟩ := ih (i + 1) _ j g d2 h
          have hf : d2 ≤ f.d2 x y := haccmin i f (f.d2 x y) rfl
          refine ⟨?_, ?_⟩
          · intro f' hf' hcand
            rcases List.mem_cons.mp hf' with rfl | hmem
            · exact hf
            · exact hrest f' hmem hcand
          · rintro j₀ g₀ d₀ h₀
            injection h₀ with h₀
            simp only [Prod.mk.injEq] at h₀
            obtain ⟨-, -, rfl⟩ := h₀
            exact le_trans hf (le_of_lt hlt)
        · rw [if_neg hlt] at h
          obtain ⟨hrest, haccmin⟩ := ih (i + 1) _ j g d2 h
          have hb : d2 ≤ bd2 := haccmin j' g' bd2 rfl
          refine ⟨?_, ?_⟩
          · intro f' hf' hcand
            rcases List.mem_cons.mp hf' with rfl | hmem
            · exact le_trans hb (not_lt.mp hlt)
            · exact hrest f' hmem hcand
          · rintro j₀ g₀ d₀ h₀
            injection h₀ with h₀
            simp only [Prod.mk.injEq] at h₀
            obtain ⟨-, -, rfl⟩ := h₀
            exact hb
    · rw [if_neg hc] at h
      obtain ⟨hrest, haccmin⟩ := ih (i + 1) acc j g d2 h
      refine ⟨?_, haccmin⟩
      intro f' hf' hcand
      rcases List.mem_cons.mp hf' with rfl | hmem
      · exact absurd hcand hc
      · exact hrest f' hmem hcand

/-- The amount returned by `collect_from` on a present id is exactly
`min(amount, max(0, nectar))` of the first matching flower. -/
theorem collectFrom_fst (field : List Flower) (fid : ℕ) (amount : ℚ)
    (f : Flower) (h : fieldGet field fid = some f) :
    (collectFrom field fid amount).1 = min amount (max 0 f.nectar) := by
  induction field with
  | nil => simp [fieldGet] at h
  | cons g rest ih =>
    by_cases hid : g.id = fid
    · have hg : g = f := by
        unfold fieldGet at h
        rw [List.find?_cons_of_pos _ (by simpa using hid)] at h
        exact Option.some_injective _ h
      unfold collectFrom
      rw [if_pos hid, hg]
    · unfold fieldGet at h
      rw [List.find?_cons_of_neg _ (by simpa using hid)] at h
      unfold collectFrom
      rw [if_neg hid]
      exact ih h

/-- After `collect_from`, the first flower carrying the collected id has its
reservation flag cleared, whatever amount was obtained. -/
theorem collectFrom_clears (field : List Flower) (fid : ℕ) (amount : ℚ)
    (f' : Flower) (h : fieldGet (collectFrom field fid amount).2 fid = some f') :
    f'.reserved = false := by
  induction field with
  | nil => simp [collectFrom, fieldGet] at h
  | cons g rest ih =>
    by_cases hid : g.id = fid
    · unfold collectFrom at h
      rw [if_pos hid] at h
      unfold fieldGet at h
      rw [List.find?_cons_of_pos _ (by simpa using hid)] at h
      have := Option.some_injective _ h
      rw [← this]
    · unfold collectFrom at h
      rw [if_neg hid] at h
      unfold fieldGet at h
      rw [List.find?_cons_of_neg _ (by simpa using hid)] at h
      exact ih h

/-! ## C10 — `reserve_nearest` picks the nearest qualifying flower -/

/-- **C10**. When `reserve_nearest` succeeds it reserves exactly one flower:
an unreserved, available flower not in the avoid set, at minimal (squared —
hence also Euclidean) distance among all qualifying flowers, and the new
field differs from the old only at that flower's position; when it fails
nothing qualifies and the field is returned unchanged. -/
theorem reserveNearest_nearest_spec (field : List Flower) (x y : ℚ)
    (avoid : List ℕ) :
    (∀ f field', reserveNearest field x y avoid = (some f, field') →
      ∃ i g, field.get? i = some g ∧ f = { g with reserved := true } ∧
        g.reserved = false ∧ g.available ∧ g.id ∉ avoid ∧
        field' = field.set i f ∧
        ∀ h ∈ field, h.reserved = false → h.available → h.id ∉ avoid →
          g.d2 x y ≤ h.d2 x y ∧
            Real.sqrt ((g.d2 x y : ℝ)) ≤ Real.sqrt ((h.d2 x y : ℝ))) ∧
      (∀ field', reserveNearest field x y avoid = (none, field') →
        field' = field ∧
          ∀ h ∈ field, ¬(h.reserved = false ∧ h.available ∧ h.id ∉ avoid)) := by
  constructor
  · intro f field' heq
    unfold reserveNearest at heq
    rcases hscan : reserveScan x y avoid field 0 none with _ | ⟨⟨i, g, d2⟩⟩
    · rw [hscan] at heq
      simp at heq
    · rw [hscan] at heq
      simp only [Prod.mk.injEq, Option.some.injEq] at heq
      obtain ⟨rfl, rfl⟩ := heq
      have hgood := reserveScan_good x y avoid field field 0 none
        (fun k f' hk => by rwa [Nat.zero_add]) (by rintro j' g' d' ⟨⟩)
        i g d2 hscan
      obtain ⟨hget, hcand, hd2⟩ := hgood
      obtain ⟨hmin, -⟩ := reserveScan_min x y avoid field 0 none i g d2 hscan
      obtain ⟨hres, hav, hnin⟩ := hcand
      refine ⟨i, g, hget, rfl, hres, hav, hnin, rfl, ?_⟩
      intro h hmem h1 h2 h3
      have hle : g.d2 x y ≤ h.d2 x y := by
        rw [← hd2]
        exact hmin h hmem ⟨h1, h2, h3⟩
      exact ⟨hle, Real.sqrt_le_sqrt (by exact_mod_cast hle)⟩
  · intro field' heq
    unfold reserveNearest at heq
    rcases hscan : reserveScan x y avoid field 0 none with _ | ⟨⟨i, g, d2⟩⟩
    · rw [hscan] at heq
      simp only [Prod.mk.injEq] at heq
      obtain ⟨-, rfl⟩ := heq
      refine ⟨rfl, ?_⟩
      have := (reserveScan_none x y avoid field 0 none hscan).2
      intro h hmem hc
      exact this h hmem hc
    · rw [hscan] at heq
      simp at heq

/-! ## C3 — the reservation handshake never double-books or leaks -/

/-- **C3**. `reserve_nearest` only ever marks a currently-unreserved,
currently-available flower as reserved (changing nothing else in the
field), and `collect_from` clears the collected flower's reservation flag
whatever amount comes back, so no collection path leaves a stale
reservation. -/
theorem reservation_protocol_spec (field : List Flower) (x y : ℚ)
    (avoid : List ℕ) (fid : ℕ) (amount : ℚ) :
    (∀ f field', reserveNearest field x y avoid = (some f, field') →
      ∃ i g, field.get? i = some g ∧ g.reserved = false ∧ g.available ∧
        f = { g with reserved := true } ∧ field' = field.set i f) ∧
      (∀ f', fieldGet (collectFrom field fid amount).2 fid = some f' →
        f'.reserved = false) := by
  constructor
  · intro f field' heq
    unfold reserveNearest at heq
    rcases hscan : reserveScan x y avoid field 0 none with _ | ⟨⟨i, g, d2⟩⟩
    · rw [hscan] at heq
      simp at heq
    · rw [hscan] at heq
      simp only [Prod.mk.injEq, Option.some.injEq] at heq
      obtain ⟨rfl, rfl⟩ := heq
      have hgood := reserveScan_good x y avoid field field 0 none
        (fun k f' hk => by rwa [Nat.zero_add]) (by rintro j' g' d' ⟨⟩)
        i g d2 hscan
      obtain ⟨hget, ⟨hres, hav, -⟩, -⟩ := hgood
      exact ⟨i, g, hget, hres, hav, rfl, rfl⟩
  · intro f' h
    exact collectFrom_clears field fid amount f' h

/-- A qualifying flower far from the origin. -/
def farFlower : Flower :=
  { id := 1, x := 10, y := 0, nectar := 2, cap := 4, regen_rate := 1/5 }

/-- A qualifying flower one unit from the origin. -/
def nearFlower : Flower :=
  { id := 2, x := 1, y := 0, nectar := 2, cap := 4, regen_rate := 1/5 }

/-- Demo field: the far flower listed first, the near one second. -/
def demoField : List Flower := [farFlower, nearFlower]

/-- **C10** witness: on `demoField`, queried from the origin, the nearer
flower (id 2, listed second) is reserved, and the spec's conclusion holds
at that concrete outcome. -/
theorem reserveNearest_nearest_spec_witness :
    reserveNearest demoField 0 0 [] =
      (some { nearFlower with reserved := true },
        [farFlower, { nearFlower with reserved := true }]) ∧
      ∃ i g, demoField.get? i = some g ∧
        ({ nearFlower with reserved := true } : Flower) =
          { g with reserved := true } ∧
        g.reserved = false ∧ g.available ∧ g.id ∉ ([] : List ℕ) ∧
        [farFlower, { nearFlower with reserved := true }] =
          demoField.set i { nearFlower with reserved := true } ∧
        ∀ h ∈ demoField, h.reserved = false → h.available →
          h.id ∉ ([] : List ℕ) →
          g.d2 0 0 ≤ h.d2 0 0 ∧
            Real.sqrt ((g.d2 0 0 : ℝ)) ≤ Real.sqrt ((h.d2 0 0 : ℝ)) := by
  have heval : reserveNearest demoField 0 0 [] =
      (some { nearFlower with reserved := true },
        [farFlower, { nearFlower with reserved := true }]) := by
    norm_num [reserveNearest, reserveScan, demoField, farFlower, nearFlower,
      Flower.candidate, Flower.available, Flower.d2]
  exact ⟨heval,
    (reserveNearest_nearest_spec demoField 0 0 []).1 _ _ heval⟩

/-- A reserved flower whose reservation must not survive collection. -/
def stuckFlower : Flower :=
  { id := 7, x := 3, y := 4, nectar := 2, cap := 5, regen_rate := 1/10,
    reserved := true }

/-- A one-flower field holding `stuckFlower`. -/
def stuckField : List Flower := [stuckFlower]

/-- `stuckFlower` after collecting half a unit: nectar down to `3/2`,
marked visited, reservation cleared. -/
def collectedFlower : Flower := { stuckFlower with nectar := 3/2, ever_visited := true, reserved := false }

/-- **C3** witness: collecting half a unit from the reserved `stuckFlower`
yields the updated flower with its reservation flag cleared, exactly as the
protocol spec requires. -/
theorem reservation_protocol_spec_witness :
    fieldGet (collectFrom stuckField 7 (1/2)).2 7 = some collectedFlower ∧
      collectedFlower.reserved = false := by
  have heval : fieldGet (collectFrom stuckField 7 (1/2)).2 7 =
      some collectedFlower := by
    norm_num [collectFrom, fieldGet, stuckField, stuckFlower,
      collectedFlower, List.find?]
  exact ⟨heval,
    (reservation_protocol_spec stuckField 0 0 [] 7 (1/2)).2 _ heval⟩

/-! ## C1 — no tremble signal exists on the delivery path -/

/-- A hive-centered world with an adjustable receiver queue. -/
noncomputable def hiveWorld (q : ℚ) : World :=
  { width := 500, height := 350, hive := (250, 175), hive_radius := 42,
    receiver_queue := q }

/-- A forager arriving at the hive center carrying `1.5` units. -/
def deliveringForager : Worker :=
  { id := 1, x := 250, y := 175, state := .toHive, carry := 3/2,
    last_flower_xy := some (310, 175) }

/-- **C1** (code bug).  Whatever the hive's queue pressure `q ≥ 0.1` — the
threshold the repository's own test forces — the delivery branch of
`_behave_forager` emits exactly one `waggle` and zero `tremble` signals:
the `to_hive` code of `worker.py` contains no queue check and no tremble
emission at all, contradicting the spec and the repository's
`test_tremble_inhibits_waggle_when_queue_high` (which cannot even import
the missing `set_tremble_threshold`). -/
theorem delivery_emits_waggle_never_tremble (q : ℚ) (hq : 1/10 ≤ q) :
    countKind (stepToHive (hiveWorld q) deliveringForager (1/20)).1.signals
        "tremble" = 0 ∧
      countKind (stepToHive (hiveWorld q) deliveringForager (1/20)).1.signals
        "waggle" = 1 ∧
      (stepToHive (hiveWorld q) deliveringForager (1/20)).2.1.state =
        .wander ∧
      (stepToHive (hiveWorld q) deliveringForager (1/20)).2.1.carry = 0 := by
  have heval : stepToHive (hiveWorld q) deliveringForager (1/20) =
      ({ hiveWorld q with
          total_deposited := 3/2,
          signals := [waggleSignal 250 175 (3/2) 1 310 175] },
        { deliveringForager with carry := 0, state := .wander }, .idle) := by
    unfold stepToHive hiveWorld deliveringForager World.deposit busEmit
    norm_num [waggleThreshold]
  rw [heval]
  unfold countKind waggleSignal
  norm_num
  decide

/-- **C1** witness: the delivery theorem at queue pressure `10`. -/
theorem delivery_emits_waggle_never_tremble_witness :
    (1/10 : ℚ) ≤ 10 ∧
      countKind (stepToHive (hiveWorld 10) deliveringForager (1/20)).1.signals
          "tremble" = 0 ∧
      countKind (stepToHive (hiveWorld 10) deliveringForager (1/20)).1.signals
          "waggle" = 1 := by
  refine ⟨by norm_num, ?_, ?_⟩
  · exact (delivery_emits_waggle_never_tremble 10 (by norm_num)).1
  · exact (delivery_emits_waggle_never_tremble 10 (by norm_num)).2.1

/-! ## C7 — a zero-yield collection heads home, it does not wander -/

/-- An available, reserved flower at the origin. -/
def contestedFlower : Flower :=
  { id := 1, x := 0, y := 0, nectar := 1, cap := 6, regen_rate := 1/5,
    reserved := true }

/-- A world holding only `contestedFlower`. -/
noncomputable def contestedWorld : World :=
  { width := 500, height := 350, hive := (250, 175), hive_radius := 42,
    flowers := [contestedFlower] }

/-- A forager standing on its reserved flower with no spare capacity, so
the collection attempt yields exactly zero. -/
def fullForager : Worker :=
  { id := 2, x := 0, y := 0, state := .toFlower, target_flower_id := some 1,
    carry := 3, capacity := 3 }

/-- **C7** (counterexample).  The forager reaches its reserved flower and
the collection attempt yields zero, yet the resulting state is `to_hive`,
not the `wander` the claim requires (the reservation is indeed cleared). -/
theorem zero_yield_goes_home_not_wander :
    (collectFrom contestedWorld.flowers 1
        (min visitQuanta (fullForager.capacity - fullForager.carry))).1 = 0 ∧
      (stepToFlower contestedWorld fullForager (1/20)).2.1.state = .toHive ∧
      ¬(stepToFlower contestedWorld fullForager (1/20)).2.1.state = .wander ∧
      ∀ f' ∈ (stepToFlower contestedWorld fullForager (1/20)).1.flowers,
        f'.reserved = false := by
  have hcol : (collectFrom contestedWorld.flowers 1
      (min visitQuanta (fullForager.capacity - fullForager.carry))).1 = 0 := by
    norm_num [collectFrom, contestedWorld, contestedFlower, fullForager,
      visitQuanta]
  have hstep : stepToFlower contestedWorld fullForager (1/20) =
      ({ contestedWorld with
          flowers := [{ contestedFlower with reserved := false }] },
        { fullForager with target_flower_id := none, state := .toHive },
        .idle) := by
    unfold stepToFlower contestedWorld fullForager fieldGet collectFrom
    norm_num [contestedFlower, Flower.available, visitQuanta, remaining,
      List.find?]
  refine ⟨hcol, ?_, ?_, ?_⟩
  · rw [hstep]
  · rw [hstep]
    decide
  · rw [hstep]
    intro f' hf'
    simp only [List.mem_singleton] at hf'
    rw [hf']

/-- **C7** (amended).  If the forager in `to_flower` reaches its reserved,
still-available flower and the collection attempt yields zero, then the
reservation is cleared (by `collect_from` itself), the target is dropped,
the carry is unchanged — and the forager transitions to `to_hive`, not to
`wander`; the `wander` reversion happens instead when the target flower is
missing or no longer available.  No exception path exists: the transition
is total. -/
theorem zero_yield_collection_spec (w : World) (b : Worker) (dt : ℚ)
    (tid : ℕ) (f : Flower)
    (htid : b.target_flower_id = some tid)
    (hget : fieldGet w.flowers tid = some f)
    (hav : f.available)
    (harr : (f.x - b.x) ^ 2 + (f.y - b.y) ^ 2 < 100)
    (hzero : (collectFrom w.flowers f.id
        (min visitQuanta (b.capacity - b.carry))).1 = 0) :
    (stepToFlower w b dt).2.1.state = .toHive ∧
      (stepToFlower w b dt).2.1.target_flower_id = none ∧
      (stepToFlower w b dt).2.1.carry = b.carry ∧
      (stepToFlower w b dt).1.flowers =
        (collectFrom w.flowers f.id
          (min visitQuanta (b.capacity - b.carry))).2 ∧
      ∀ f', fieldGet (stepToFlower w b dt).1.flowers f.id = some f' →
        f'.reserved = false := by
  have hid : f.id = tid := by
    have := List.find?_some hget
    simpa using this
  have hfid : fieldGet w.flowers f.id = some f := by rw [hid]; exact hget
  have hgot : (collectFrom w.flowers f.id
      (min visitQuanta (b.capacity - b.carry))).1 =
      min (min visitQuanta (b.capacity - b.carry)) (max 0 f.nectar) :=
    collectFrom_fst w.flowers f.id _ f hfid
  have hnec : (0 : ℚ) < max 0 f.nectar := by
    have : (3/4 : ℚ) ≤ f.nectar := hav
    rw [max_eq_right (by linarith)]
    linarith
  have hamount : min visitQuanta (b.capacity - b.carry) = 0 := by
    rw [hgot] at hzero
    rcases le_or_lt (min visitQuanta (b.capacity - b.carry)) (max 0 f.nectar)
      with hle | hlt
    · rwa [min_eq_left hle] at hzero
    · rw [min_eq_right (le_of_lt hlt)] at hzero
      linarith
  have hcap : b.capacity - b.carry = 0 := by
    rcases le_or_lt (b.capacity - b.carry) visitQuanta with hle | hlt
    · rwa [min_eq_right hle] at hamount
    · rw [min_eq_left (le_of_lt hlt)] at hamount
      exact absurd hamount (by norm_num [visitQuanta])
  have hnochain : ¬(b.carry + (collectFrom w.flowers f.id
      (min visitQuanta (b.capacity - b.carry))).1 + 1/1000000 < b.capacity ∧
      0 < remaining (collectFrom w.flowers f.id
        (min visitQuanta (b.capacity - b.carry))).2) := by
    rintro ⟨hlt, -⟩
    rw [hzero] at hlt
    linarith
  have hstep : stepToFlower w b dt =
      ({ w with flowers := (collectFrom w.flowers f.id
            (min visitQuanta (b.capacity - b.carry))).2 },
        { b with
            carry := b.carry + (collectFrom w.flowers f.id
              (min visitQuanta (b.capacity - b.carry))).1,
            avoid := b.avoid, last_flower_xy := b.last_flower_xy,
            target_flower_id := none, state := .toHive }, .idle) := by
    unfold stepToFlower
    rw [htid]
    dsimp only
    rw [hget]
    split
    · rename_i heq
      exact absurd heq (by simp)
    · rename_i f' heq
      injection heq with heq'
      subst heq'
      rw [if_neg (not_not_intro hav), if_pos harr]
      rw [if_neg hnochain, hzero]
      simp
  rw [hstep]
  refine ⟨rfl, rfl, by dsimp only; rw [hzero, add_zero], rfl, ?_⟩
  intro f' hf'
  exact collectFrom_clears w.flowers f.id _ f' hf'

/-- **C7** witness: the amended statement at the concrete contention
scenario of the counterexample fixtures, all hypotheses discharged. -/
theorem zero_yield_collection_spec_witness :
    fullForager.target_flower_id = some 1 ∧
      fieldGet contestedWorld.flowers 1 = some contestedFlower ∧
      contestedFlower.available ∧
      (stepToFlower contestedWorld fullForager (1/20)).2.1.state = .toHive ∧
      (stepToFlower contestedWorld fullForager (1/20)).2.1.target_flower_id =
        none := by
  have hget : fieldGet contestedWorld.flowers 1 = some contestedFlower := by
    norm_num [fieldGet, contestedWorld, contestedFlower, List.find?]
  have hspec := zero_yield_collection_spec contestedWorld fullForager (1/20)
    1 contestedFlower rfl hget
    (by norm_num [contestedFlower, Flower.available])
    (by norm_num [contestedFlower, fullForager])
    (by norm_num [collectFrom, contestedWorld, contestedFlower, fullForager,
      visitQuanta])
  exact ⟨rfl, hget, by norm_num [contestedFlower, Flower.available],
    hspec.1, hspec.2.1⟩

/-! ## C8 — `strongest` versus `query` with limit 1 -/

section FirstMax

variable {α : Type} (val : α → ℝ)

/-- `firstMaxBy` of a nonempty list always returns a value. -/
theorem firstMaxBy_ne_none (a : α) (l : List α) :
    firstMaxBy val (a :: l) ≠ none := by
  unfold firstMaxBy
  rcases firstMaxBy val l with _ | q
  · simp
  · dsimp only
    split <;> simp

/-- `firstMaxBy` returns an element of the list attaining the maximum. -/
theorem firstMaxBy_spec :
    ∀ (l : List α) (a : α), firstMaxBy val l = some a →
      a ∈ l ∧ ∀ x ∈ l, val x ≤ val a := by
  intro l
  induction l with
  | nil => intro a h; exact absurd h (by simp [firstMaxBy])
  | cons b rest ih =>
    intro a h
    unfold firstMaxBy at h
    rcases hr : firstMaxBy val rest with _ | q
    · rw [hr] at h
      injection h with h
      subst h
      have hnil : rest = [] := by
        cases rest with
        | nil => rfl
        | cons c t => exact absurd hr (firstMaxBy_ne_none val c t)
      subst hnil
      refine ⟨List.mem_cons_self _ _, ?_⟩
      intro x hx
      rcases List.mem_cons.mp hx with rfl | hx'
      · exact le_refl _
      · exact absurd hx' (by simp)
    · rw [hr] at h
      dsimp only at h
      obtain ⟨hqmem, hqmax⟩ := ih q hr
      by_cases hba : val b ≥ val q
      · rw [if_pos hba] at h
        injection h with h
        subst h
        refine ⟨List.mem_cons_self _ _, ?_⟩
        intro x hx
        rcases List.mem_cons.mp hx with rfl | hx'
        · exact le_refl _
        · exact le_trans (hqmax x hx') hba
      · rw [if_neg hba] at h
        injection h with h
        subst h
        refine ⟨List.mem_cons_of_mem _ hqmem, ?_⟩
        intro x hx
        rcases List.mem_cons.mp hx with rfl | hx'
        · exact le_of_not_ge hba
        · exact hqmax x hx'

/-- `firstMaxBy` on a cons, written as a total equation. -/
theorem firstMaxBy_cons (x : α) (l : List α) :
    firstMaxBy val (x :: l) =
      some (match firstMaxBy val l with
        | none => x
        | some q => if val x ≥ val q then x else q) := by
  rcases hq : firstMaxBy val l with _ | q
  · simp only [firstMaxBy, hq]
  · simp only [firstMaxBy, hq]
    split_ifs <;> rfl

/-- The `strongest` scan seeded with an element and its own value returns
the first maximum of seed-then-list (the seed wins ties). -/
theorem strongestScan_seeded :
    ∀ (l : List α) (a : α),
      strongestScan val l (some a) (val a) =
        some (match firstMaxBy val l with
          | none => a
          | some q => if val a < val q then q else a) := by
  intro l
  induction l with
  | nil => intro a; rfl
  | cons x rest ih =>
    intro a
    rw [firstMaxBy_cons]
    dsimp only
    unfold strongestScan
    by_cases hxa : val x > val a
    · rw [if_pos hxa, ih x]
      rcases hfm : firstMaxBy val rest with _ | q <;> dsimp only <;>
        split_ifs <;> first | rfl | (exfalso; linarith)
    · rw [if_neg hxa, ih a]
      have hxa' := not_lt.mp hxa
      rcases hfm : firstMaxBy val rest with _ | q <;> dsimp only <;>
        split_ifs <;> first | rfl | (exfalso; linarith)

/-- The `strongest` scan from the empty accumulator: the first maximum if it
strictly beats the running floor `bv`, otherwise nothing. -/
theorem strongestScan_fromNone :
    ∀ (l : List α) (bv : ℝ),
      strongestScan val l none bv =
        match firstMaxBy val l with
        | none => none
        | some q => if bv < val q then some q else none := by
  intro l
  induction l with
  | nil => intro bv; rfl
  | cons x rest ih =>
    intro bv
    rw [firstMaxBy_cons]
    dsimp only
    unfold strongestScan
    by_cases hxb : val x > bv
    · rw [if_pos hxb, strongestScan_seeded val rest x]
      rcases hfm : firstMaxBy val rest with _ | q <;> dsimp only <;>
        split_ifs <;> first | rfl | (exfalso; linarith)
    · rw [if_neg hxb, ih bv]
      have hxb' := not_lt.mp hxb
      rcases hfm : firstMaxBy val rest with _ | q <;> dsimp only <;>
        split_ifs <;> first | rfl | (exfalso; linarith)

/-- Head of a stable descending insertion. -/
theorem insertDescBy_head (a : α) (m : List α) :
    (insertDescBy val a m).head? =
      some (match m.head? with
        | none => a
        | some b => if val a ≥ val b then a else b) := by
  cases m with
  | nil => rfl
  | cons b m' =>
    unfold insertDescBy
    simp only [List.head?_cons]
    split_ifs <;> rfl

/-- The head of the stable descending sort is the first maximum. -/
theorem sortDescBy_head :
    ∀ l : List α, (sortDescBy val l).head? = firstMaxBy val l := by
  intro l
  induction l with
  | nil => rfl
  | cons a l ih =>
    rw [firstMaxBy_cons]
    unfold sortDescBy
    rw [insertDescBy_head, ih]

/-- Filtering by a threshold below the maximum keeps the first maximum the
first maximum. -/
theorem firstMaxBy_filter (c : ℝ) :
    ∀ (l : List α) (q : α), firstMaxBy val l = some q → c ≤ val q →
      firstMaxBy val (l.filter (fun s => decide (val s ≥ c))) = some q := by
  intro l
  induction l with
  | nil => intro q h _; exact absurd h (by simp [firstMaxBy])
  | cons b rest ih =>
    intro q h hc
    rw [firstMaxBy_cons] at h
    injection h with h
    rcases hfm : firstMaxBy val rest with _ | qr
    · rw [hfm] at h
      dsimp only at h
      subst h
      have hnil : rest = [] := by
        cases rest with
        | nil => rfl
        | cons c' t => exact absurd hfm (firstMaxBy_ne_none val c' t)
      subst hnil
      simp only [List.filter, decide_eq_true hc]
      rfl
    · rw [hfm] at h
      dsimp only at h
      by_cases hbq : val b ≥ val qr
      · rw [if_pos hbq] at h
        subst h
        have hfil : (b :: rest).filter (fun s => decide (val s ≥ c)) =
            b :: rest.filter (fun s => decide (val s ≥ c)) := by
          simp [List.filter_cons, hc]
        rw [hfil, firstMaxBy_cons]
        rcases hff : firstMaxBy val
            (rest.filter (fun s => decide (val s ≥ c))) with _ | qf
        · rfl
        · have hqf := firstMaxBy_spec val _ qf hff
          have hmem : qf ∈ rest := List.mem_of_mem_filter hqf.1
          have h2 : val qf ≤ val qr :=
            (firstMaxBy_spec val rest qr hfm).2 qf hmem
          dsimp only
          rw [if_pos (le_trans h2 hbq)]
      · rw [if_neg hbq] at h
        subst h
        have hrec := ih qr hfm hc
        by_cases hbc : val b ≥ c
        · have hfil : (b :: rest).filter (fun s => decide (val s ≥ c)) =
              b :: rest.filter (fun s => decide (val s ≥ c)) := by
            simp [List.filter_cons, hbc]
          rw [hfil, firstMaxBy_cons, hrec]
          dsimp only
          rw [if_neg hbq]
        · have hfil : (b :: rest).filter (fun s => decide (val s ≥ c)) =
              rest.filter (fun s => decide (val s ≥ c)) := by
            simp [List.filter_cons, hbc]
          rw [hfil]
          exact hrec

/-- The scoring pass of `query` is a filter followed by pairing with the
strength. -/
theorem filterMap_scored (c : ℝ) :
    ∀ l : List α,
      l.filterMap (fun s => if val s ≥ c then some (s, val s) else none) =
        (l.filter (fun s => decide (val s ≥ c))).map (fun s => (s, val s)) := by
  intro l
  induction l with
  | nil => rfl
  | cons b rest ih =>
    by_cases hbc : val b ≥ c <;>
      simp [List.filterMap_cons, List.filter_cons, hbc, ih]

/-- Stable descending insertion commutes with pairing by the key. -/
theorem insertDescBy_map_pair (a : α) :
    ∀ m : List α,
      insertDescBy (fun p : α × ℝ => p.2) (a, val a)
          (m.map (fun s => (s, val s))) =
        (insertDescBy val a m).map (fun s => (s, val s)) := by
  intro m
  induction m with
  | nil => rfl
  | cons b m' ih =>
    unfold insertDescBy
    dsimp only [List.map_cons]
    split_ifs with h1
    · rfl
    · rw [List.map_cons, ← ih]

/-- The stable descending sort commutes with pairing by the key. -/
theorem sortDescBy_map_pair :
    ∀ l : List α,
      sortDescBy (fun p : α × ℝ => p.2) (l.map (fun s => (s, val s))) =
        (sortDescBy val l).map (fun s => (s, val s)) := by
  intro l
  induction l with
  | nil => rfl
  | cons a l ih =>
    unfold sortDescBy
    dsimp only [List.map_cons]
    rw [ih, insertDescBy_map_pair]

end FirstMax

/-- A signal too weak to clear `query`'s default `min_strength` of `0.05`
but strong enough for `strongest` (which only requires strength `> 0`). -/
noncomputable def weakSignal : Signal :=
  { kind := "waggle", x := 0, y := 0, radius := 50, intensity := 0.03,
    decay := 1/2, ttl := 2 }

/-- **C8** (counterexample).  On a bus holding only `weakSignal`
(local strength `0.03` at the query point), `query` with the default
`min_strength = 0.05` and limit `1` returns the empty list, yet `strongest`
returns the signal — so `strongest` is *not* the `query`-with-limit-1
result, and in particular is not `none` exactly when that query is empty. -/
theorem strongest_vs_query_counterexample :
    busQuery [weakSignal] 0 0 none 0.05 1 = [] ∧
      busStrongest [weakSignal] 0 0 none = some weakSignal := by
  have hval : weakSignal.strengthAt 0 0 = 0.03 := by
    unfold Signal.strengthAt Signal.falloff Signal.distTo Signal.falloffAtDist
      weakSignal
    norm_num
  constructor
  · unfold busQuery busPool
    rw [List.filterMap_cons]
    rw [if_neg (by rw [hval]; norm_num)]
    rfl
  · unfold busStrongest busPool strongestScan
    rw [if_pos (by rw [hval]; norm_num)]
    rfl

/-- **C8** (amended).  Whenever some signal of the pool reaches `query`'s
minimum strength (`0.05` by default), `strongest(x, y, kinds)` returns
exactly the sole element of `query(x, y, kinds)` with limit `1`: the first
pool signal of maximal local strength.  (Below that threshold the two
disagree: `query` returns the empty list while `strongest` still returns
any signal of positive strength, as the counterexample shows.) -/
theorem strongest_agrees_with_query_spec (bus : SignalBus) (x y : ℝ)
    (kinds : Option (List String))
    (h : ∃ s ∈ busPool bus kinds, s.strengthAt x y ≥ 0.05) :
    ∃ s, busQuery bus x y kinds 0.05 1 = [s] ∧
      busStrongest bus x y kinds = some s ∧
      s ∈ busPool bus kinds ∧
      ∀ t ∈ busPool bus kinds, t.strengthAt x y ≤ s.strengthAt x y := by
  obtain ⟨s₀, hs₀, hv₀⟩ := h
  rcases hq : firstMaxBy (fun s => s.strengthAt x y) (busPool bus kinds)
    with _ | q
  · have : busPool bus kinds = [] := by
      cases hp : busPool bus kinds with
      | nil => rfl
      | cons a l =>
        rw [hp] at hq
        exact absurd hq (firstMaxBy_ne_none _ a l)
    rw [this] at hs₀
    exact absurd hs₀ (by simp)
  · obtain ⟨hqmem, hqmax⟩ := firstMaxBy_spec _ _ q hq
    have hvq : (0.05 : ℝ) ≤ q.strengthAt x y :=
      le_trans hv₀ (hqmax s₀ hs₀)
    refine ⟨q, ?_, ?_, hqmem, hqmax⟩
    · dsimp only [busQuery]
      rw [filterMap_scored (fun s : Signal => s.strengthAt x y) 0.05,
        sortDescBy_map_pair (fun s : Signal => s.strengthAt x y)]
      have hfil := firstMaxBy_filter (fun s : Signal => s.strengthAt x y) 0.05
        (busPool bus kinds) q hq hvq
      have hhead := sortDescBy_head (fun s : Signal => s.strengthAt x y)
        ((busPool bus kinds).filter (fun s => decide (s.strengthAt x y ≥ 0.05)))
      rw [hfil] at hhead
      rcases hsort : sortDescBy (fun s : Signal => s.strengthAt x y)
          ((busPool bus kinds).filter
            (fun s => decide (s.strengthAt x y ≥ 0.05))) with _ | ⟨q', tl⟩
      · rw [hsort] at hhead
        exact absurd hhead (by simp)
      · rw [hsort] at hhead
        simp only [List.head?_cons, Option.some.injEq] at hhead
        subst hhead
        simp
    · unfold busStrongest
      rw [strongestScan_fromNone (fun s : Signal => s.strengthAt x y), hq]
      dsimp only
      rw [if_pos (by linarith)]

/-- A comfortably loud signal for the C8 witness. -/
noncomputable def loudSignal : Signal :=
  { kind := "waggle", x := 0, y := 0, radius := 50, intensity := 2,
    decay := 1/2, ttl := 2 }

/-- **C8** witness: on the one-signal `loudSignal` bus the agreement spec
applies, its existence hypothesis discharged at the query point `(0, 0)`
where the signal's strength is `2 ≥ 0.05`. -/
theorem strongest_agrees_with_query_spec_witness :
    loudSignal.strengthAt 0 0 ≥ 0.05 ∧
      ∃ s, busQuery [loudSignal] 0 0 none 0.05 1 = [s] ∧
        busStrongest [loudSignal] 0 0 none = some s ∧
        s ∈ busPool [loudSignal] none ∧
        ∀ t ∈ busPool [loudSignal] none,
          t.strengthAt 0 0 ≤ s.strengthAt 0 0 := by
  have hval : loudSignal.strengthAt 0 0 = 2 := by
    unfold Signal.strengthAt Signal.falloff Signal.distTo Signal.falloffAtDist
      loudSignal
    norm_num
  have hs : loudSignal.strengthAt 0 0 ≥ 0.05 := by
    rw [hval]; norm_num
  exact ⟨hs, strongest_agrees_with_query_spec [loudSignal] 0 0 none
    ⟨loudSignal, by simp [busPool], hs⟩⟩

end BeeSim
